import Mathlib

/-!
Verification of the chukfi backend core subsystems:
the extensible bitmask permission engine (src/lib/permissions/permission.go)
and the schema metadata registry (src/lib/schemaregistry/registry.go).

Go maps are embedded as association lists with Go map semantics
(insert overwrites, delete removes the key); the stateful registries are
embedded by explicit state passing; the durable store (gorm) is embedded
by a parameter carrying the outcome of the persistence round trip; gorm's
`schema.NamingStrategy{}.TableName` (third-party code) is an abstract
`naming : String → String` parameter.
-/

set_option autoImplicit false

namespace Chukfi

universe u v

variable {α : Type u} {β : Type v}

/-! ### Association-list maps with Go map semantics -/

/-- Lookup in an association list (Go `m[k]`). -/
def mapFind [DecidableEq α] : List (α × β) → α → Option β
  | [], _ => none
  | (k, v) :: t, q => if q = k then some v else mapFind t q

/-- Key removal (Go `delete(m, k)`). -/
def mapErase [DecidableEq α] : List (α × β) → α → List (α × β)
  | [], _ => []
  | (k, v) :: t, q => if q = k then mapErase t q else (k, v) :: mapErase t q

/-- Insert-or-overwrite (Go `m[k] = v`). -/
def mapInsert [DecidableEq α] (m : List (α × β)) (k : α) (v : β) : List (α × β) :=
  mapErase m k ++ [(k, v)]

/-! ### Go string helpers -/

/-- Bool test that `sub` is a prefix of `l`. -/
def prefixCheck : List Char → List Char → Bool
  | [], _ => true
  | _ :: _, [] => false
  | a :: as, b :: bs => a == b && prefixCheck as bs

/-- Bool test that `sub` occurs contiguously inside `l`. -/
def containsSub : List Char → List Char → Bool
  | [], sub => prefixCheck sub []
  | a :: t, sub => prefixCheck sub (a :: t) || containsSub t sub

/-- Go `strings.Contains(s, sub)`. -/
def goContains (s sub : String) : Bool :=
  containsSub s.data sub.data

/-- ASCII lowercasing of one character (the tag/marker strings the source
compares are ASCII, so this matches Go's Unicode `ToLower` on them). -/
def charToLower (c : Char) : Char :=
  if 65 ≤ c.toNat ∧ c.toNat ≤ 90 then Char.ofNat (c.toNat + 32) else c

/-- Go `strings.ToLower(s)` on ASCII input. -/
def strToLower (s : String) : String :=
  ⟨s.data.map charToLower⟩

/-- Go `strings.HasSuffix(s, suffix)`. -/
def strEndsWith (s suffix : String) : Bool :=
  prefixCheck suffix.data.reverse s.data.reverse

/-- Go `s[:len(s)-n]` for the ASCII suffixes the source drops. -/
def strDropRight (s : String) (n : Nat) : String :=
  ⟨s.data.take (s.data.length - n)⟩

/-- Go `strings.Split(s, ",")[0]`: the prefix up to the first comma. -/
def firstCommaSegment (s : String) : String :=
  ⟨s.data.takeWhile (fun c => c != ',')⟩

/-- Spec-side notion: `sub` occurs as a contiguous substring of `s`. -/
def substrOccurs (sub s : String) : Prop :=
  ∃ p q : List Char, s.data = p ++ sub.data ++ q

/-- Spec-side notion for C9: case-insensitive substring containment. -/
def containsCaseInsensitive (s sub : String) : Bool :=
  goContains (strToLower s) (strToLower sub)

/-! ### Permission engine (src/lib/permissions/permission.go)

`Permission` is Go's `uint64`; it is embedded as `Nat` with an explicit
`% 2 ^ 64` at the one shift that can overflow. The `*gorm.DB` handle is
embedded as a `dbAttached` flag plus a `persistResult` parameter carrying
the outcome of the `db.Create` round trip (`none` = success). -/

/-- Built-in bit 0: `ViewDashboard = 1 << iota`. -/
def ViewDashboard : Nat := 1

/-- Built-in bit 1. -/
def ViewModels : Nat := 2

/-- Built-in bit 2. -/
def ViewUsers : Nat := 4

/-- Built-in bit 3. -/
def ManageUsers : Nat := 8

/-- Built-in bit 4. -/
def ManageModels : Nat := 16

/-- Built-in bit 5, the superuser bit. -/
def Administrator : Nat := 32

/-- Number of built-in permissions (the `iota` value after the block). -/
def maxBuiltinBit : Nat := 6

/-- Errors surfaced by the permission engine; `dbError` carries a verbatim
persistence-layer error. -/
inductive GoError : Type where
  | maxPermissionsReached : GoError
  | permissionNotFound : GoError
  | dbError (msg : String) : GoError
deriving DecidableEq

/-- State of `PermissionRegistry` (the mutex is concurrency discipline, not state). -/
structure PermState where
  nameToPermission : List (String × Nat)
  permissionToName : List (Nat × String)
  nextBit : Nat
  dbAttached : Bool
deriving DecidableEq

/-- The registry as seeded by `init()` with the six built-ins. -/
def initialRegistry : PermState :=
  { nameToPermission :=
      [("ViewDashboard", ViewDashboard), ("ViewModels", ViewModels),
       ("ViewUsers", ViewUsers), ("ManageUsers", ManageUsers),
       ("ManageModels", ManageModels), ("Administrator", Administrator)],
    permissionToName :=
      [(ViewDashboard, "ViewDashboard"), (ViewModels, "ViewModels"),
       (ViewUsers, "ViewUsers"), (ManageUsers, "ManageUsers"),
       (ManageModels, "ManageModels"), (Administrator, "Administrator")],
    nextBit := maxBuiltinBit,
    dbAttached := false }

/-- A persisted custom-permission row (`CustomPermission` model). -/
structure CustomPermission where
  Name : String
  BitPosition : Nat
deriving DecidableEq

/-- Model of `RegisterPermission(name)`: returns the existing capability if mapped, fails
at 64 bits, otherwise allocates the next bit, inserts into both maps, and on a
persistence failure rolls the insertions and the cursor back. -/
def RegisterPermission (s : PermState) (name : String) (persistResult : Option GoError) :
    Except GoError Nat × PermState :=
  match mapFind s.nameToPermission name with
  | some foundperm => (Except.ok foundperm, s)
  | none =>
    if s.nextBit ≥ 64 then (Except.error GoError.maxPermissionsReached, s)
    else
      let bitPos := s.nextBit
      let perm := (1 <<< bitPos) % 2 ^ 64
      let s1 : PermState :=
        { s with
          nextBit := s.nextBit + 1,
          nameToPermission := mapInsert s.nameToPermission name perm,
          permissionToName := mapInsert s.permissionToName perm name }
      if s.dbAttached then
        match persistResult with
        | some e =>
          (Except.error e,
            { s1 with
              nameToPermission := mapErase s1.nameToPermission name,
              permissionToName := mapErase s1.permissionToName perm,
              nextBit := s1.nextBit - 1 })
        | none => (Except.ok perm, s1)
      else (Except.ok perm, s1)

/-- One iteration of the `LoadCustomPermissions` loop body. -/
def loadStep (st : PermState) (cp : CustomPermission) : PermState :=
  let perm := (1 <<< cp.BitPosition) % 2 ^ 64
  { st with
    nameToPermission := mapInsert st.nameToPermission cp.Name perm,
    permissionToName := mapInsert st.permissionToName perm cp.Name,
    nextBit := if cp.BitPosition ≥ st.nextBit then cp.BitPosition + 1 else st.nextBit }

/-- Model of `LoadCustomPermissions`: folds the loop body over the rows returned by the
store (the query orders them by ascending bit position). -/
def LoadCustomPermissions (s : PermState) (rows : List CustomPermission) : PermState :=
  rows.foldl loadStep s

/-- Spec-side notion for C7: one past the largest loaded bit position
(zero on an empty row set). -/
def maxLoaded (rows : List CustomPermission) : Nat :=
  rows.foldr (fun cp acc => max (cp.BitPosition + 1) acc) 0

/-- Model of `HasPermission(userPermissions, requiredPermissions)`. -/
def HasPermission (userPermissions requiredPermissions : Nat) : Bool :=
  if userPermissions &&& Administrator = Administrator then true
  else decide (userPermissions &&& requiredPermissions = requiredPermissions)

/-! ### Schema metadata registry (src/lib/schemaregistry/registry.go)

A Go record-type definition is embedded as a `GoModel`: its struct name,
optional `TableName()` override, and its declared members. A member carries
its name, `gorm`/`json` tags, rendered type string, the `Anonymous` flag, a
flag telling whether its (pointer-dereferenced) type is a struct kind, and —
for embedded structs — that struct's own member list. -/

/-- One struct member as seen by `reflect`. -/
inductive GoField : Type where
  | mk (name gormTag jsonTag typeName : String) (anonymous isStruct : Bool)
      (sub : List GoField) : GoField

/-- Declared member name (for anonymous members, the embedded type's name). -/
def GoField.name : GoField → String
  | .mk n _ _ _ _ _ _ => n

/-- The `gorm` tag text. -/
def GoField.gormTag : GoField → String
  | .mk _ g _ _ _ _ _ => g

/-- The `json` tag text. -/
def GoField.jsonTag : GoField → String
  | .mk _ _ j _ _ _ _ => j

/-- The rendered `field.Type.String()`. -/
def GoField.typeName : GoField → String
  | .mk _ _ _ t _ _ _ => t

/-- The `field.Anonymous` flag. -/
def GoField.anonymous : GoField → Bool
  | .mk _ _ _ _ a _ _ => a

/-- Whether the member's (pointer-dereferenced) type has struct kind. -/
def GoField.isStruct : GoField → Bool
  | .mk _ _ _ _ _ s _ => s

/-- Members of the embedded struct (meaningful when anonymous ∧ isStruct). -/
def GoField.sub : GoField → List GoField
  | .mk _ _ _ _ _ _ s => s

/-- A record-type definition handed to `RegisterSchema`. -/
structure GoModel where
  structName : String
  tableNameOverride : Option String
  fields : List GoField

/-- One extracted field descriptor (`FieldMetadata`). `Type` is a reserved
word in Lean, hence `Type'`. -/
structure FieldMetadata where
  Name : String
  Type' : String
  GormTag : String
  JSONTag : String
  Required : Bool
  PrimaryKey : Bool
deriving DecidableEq

/-- Registered metadata for one record type (`SchemaMetadata`). -/
structure SchemaMetadata where
  TableName : String
  AdminOnly : Bool
  Fields : List FieldMetadata
deriving DecidableEq

/-- The discovery projection (`simpleMetadata`). -/
structure simpleMetadata where
  AdminOnly : Bool
deriving DecidableEq

/-- State of the registry: canonical-name map and alias map. -/
structure RegState where
  registry : List (String × SchemaMetadata)
  aliases : List (String × String)
deriving DecidableEq

/-- The external field-name computation inside `extractFieldsRecursive`:
first comma-delimited segment of a non-empty, non-`"-"` json tag when that
segment is non-empty, else the declared name. -/
def jsonFieldName (name jsonTag : String) : String :=
  if jsonTag ≠ "" ∧ jsonTag ≠ "-" then
    let part := firstCommaSegment jsonTag
    if part ≠ "" then part else name
  else name

/-- Model of `extractFieldsRecursive`: flattens embedded structs, skips `adminonly`
markers and gorm-excluded members, and builds one descriptor per member. -/
def extractFieldsRecursive : List GoField → List FieldMetadata
  | [] => []
  | GoField.mk name gormTag jsonTag typeName anonymous isStruct sub :: rest =>
    if anonymous then
      (if isStruct then extractFieldsRecursive sub else []) ++ extractFieldsRecursive rest
    else if strToLower name = "adminonly" then
      extractFieldsRecursive rest
    else if gormTag = "-" ∨ gormTag = "-:all" then
      extractFieldsRecursive rest
    else
      { Name := jsonFieldName name jsonTag,
        Type' := typeName,
        GormTag := gormTag,
        JSONTag := jsonTag,
        Required := goContains gormTag "not null",
        PrimaryKey := goContains gormTag "primaryKey" || goContains gormTag "primarykey" }
        :: extractFieldsRecursive rest

/-- Model of `extractFields`: runs the recursive extraction on the type's members. -/
def extractFields (model : GoModel) : List FieldMetadata :=
  extractFieldsRecursive model.fields

/-- Model of `hasHiddenField`: scans only the top-level members for a name whose
lowercase form is "hidden". -/
def hasHiddenField (model : GoModel) : Bool :=
  model.fields.any (fun f => strToLower f.name == "hidden")

/-- Model of `hasAdminOnlyField`: scans only the top-level members for a name whose
lowercase form is "adminonly". -/
def hasAdminOnlyField (model : GoModel) : Bool :=
  model.fields.any (fun f => strToLower f.name == "adminonly")

/-- Model of `singularize`: the suffix-rule heuristic. -/
def singularize (name : String) : String :=
  if name.data.length = 0 then name
  else if strEndsWith name "ies" then strDropRight name 3 ++ "y"
  else if strEndsWith name "ses" || strEndsWith name "xes" || strEndsWith name "zes"
      || strEndsWith name "ches" || strEndsWith name "shes" then strDropRight name 2
  else if strEndsWith name "s" && !(strEndsWith name "ss") then strDropRight name 1
  else name

/-- Model of `getTableName`: the `TableName()` override when the model implements
`Tabler`, else gorm's naming strategy applied to the struct name. -/
def getTableName (naming : String → String) (model : GoModel) : String :=
  match model.tableNameOverride with
  | some t => t
  | none => naming model.structName

/-- Model of `RegisterSchema`: concealed types are never inserted; otherwise inserts
the metadata under the canonical name and, when the singular form differs,
an alias singular→canonical. -/
def RegisterSchema (naming : String → String) (st : RegState) (model : GoModel) : RegState :=
  let tableName := getTableName naming model
  let adminOnly := hasAdminOnlyField model
  let hidden := hasHiddenField model
  let fields := extractFields model
  if hidden then st
  else
    let registry' := mapInsert st.registry tableName
      { TableName := tableName, AdminOnly := adminOnly, Fields := fields }
    let singular := singularize tableName
    let aliases' :=
      if singular ≠ tableName then mapInsert st.aliases singular tableName else st.aliases
    { registry := registry', aliases := aliases' }

/-- Model of `ValidateBody`: missing = required, non-primary, absent from the body;
unknown = body keys outside the field set; unregistered name → two nil lists.
The body map is embedded as its key list. -/
def ValidateBody (st : RegState) (tableName : String) (body : List String) :
    List String × List String :=
  match mapFind st.registry tableName with
  | none => ([], [])
  | some meta =>
    let fieldNames := meta.Fields.map FieldMetadata.Name
    (meta.Fields.filterMap (fun f =>
        if f.Required && !f.PrimaryKey && !(body.contains f.Name) then some f.Name else none),
      body.filter (fun key => !(fieldNames.contains key)))

/-- Model of `ResolveTableName`: canonical names, then aliases, then gorm's derived
name against canonical names, then against aliases. -/
def ResolveTableName (naming : String → String) (st : RegState) (name : String) :
    Option String :=
  match mapFind st.registry name with
  | some _ => some name
  | none =>
    match mapFind st.aliases name with
    | some actual => some actual
    | none =>
      let snakeName := naming name
      match mapFind st.registry snakeName with
      | some _ => some snakeName
      | none =>
        match mapFind st.aliases snakeName with
        | some actual => some actual
        | none => none

/-- Model of `GetAllRegisteredSchemas` (the `listAll` snapshot). -/
def GetAllRegisteredSchemas (st : RegState) : List (String × simpleMetadata) :=
  st.registry.map (fun p => (p.1, { AdminOnly := p.2.AdminOnly }))

/-! ### Concrete sample data used in spot checks -/

/-- Field descriptors of a sample "posts" collection: primary key ID and
required fields A and B. -/
def postsFields : List FieldMetadata :=
  [{ Name := "ID", Type' := "uint", GormTag := "primaryKey", JSONTag := "",
     Required := false, PrimaryKey := true },
   { Name := "A", Type' := "string", GormTag := "not null", JSONTag := "",
     Required := true, PrimaryKey := false },
   { Name := "B", Type' := "string", GormTag := "not null", JSONTag := "",
     Required := true, PrimaryKey := false }]

/-- Metadata of the sample "posts" collection. -/
def postsMeta : SchemaMetadata :=
  { TableName := "posts", AdminOnly := false, Fields := postsFields }

/-- A sample registry state holding the "posts" collection and its alias. -/
def postsState : RegState :=
  { registry := [("posts", postsMeta)], aliases := [("post", "posts")] }

/-- The empty registry state. -/
def emptyRegState : RegState :=
  { registry := [], aliases := [] }

/-- A sample concealed model: top-level member named "Hidden". -/
def secretModel : GoModel :=
  { structName := "Secret", tableNameOverride := some "secrets",
    fields := [GoField.mk "Hidden" "" "" "bool" false false []] }

/-- A sample model embedding a struct whose members include a "Hidden"
marker, with no top-level marker of its own. -/
def embeddedMarkerModel : GoModel :=
  { structName := "Post", tableNameOverride := some "posts",
    fields :=
      [GoField.mk "Meta" "" "" "Meta" true true
        [GoField.mk "Hidden" "" "" "bool" false false [],
         GoField.mk "Note" "" "" "string" false false []],
       GoField.mk "Title" "not null" "" "string" false false []] }

/-- A sample registrable model with a plural table name. -/
def articleModel : GoModel :=
  { structName := "Article", tableNameOverride := some "articles",
    fields := [GoField.mk "Title" "not null" "" "string" false false []] }

/-! ### Lemmas about the map primitives -/

theorem mapFind_append [DecidableEq α] (l₁ l₂ : List (α × β)) (q : α) :
    mapFind (l₁ ++ l₂) q =
      match mapFind l₁ q with
      | some v => some v
      | none => mapFind l₂ q := by
  induction l₁ with
  | nil => simp [mapFind]
  | cons p t ih =>
    obtain ⟨k, v⟩ := p
    by_cases h : q = k <;> simp [mapFind, h, ih]

theorem mapFind_erase_self [DecidableEq α] (m : List (α × β)) (q : α) :
    mapFind (mapErase m q) q = none := by
  induction m with
  | nil => simp [mapErase, mapFind]
  | cons p t ih =>
    obtain ⟨k, v⟩ := p
    by_cases h : q = k
    · subst h; simp [mapErase, mapFind, ih]
    · simp [mapErase, mapFind, h, ih]

theorem mapFind_erase_ne [DecidableEq α] (m : List (α × β)) {q k : α} (h : q ≠ k) :
    mapFind (mapErase m k) q = mapFind m q := by
  induction m with
  | nil => simp [mapErase]
  | cons p t ih =>
    obtain ⟨k', v⟩ := p
    by_cases hk : k = k'
    · subst hk
      simp [mapErase, mapFind, h, ih]
    · by_cases hq : q = k' <;> simp [mapErase, mapFind, hk, hq, ih]

theorem mapErase_of_find_none [DecidableEq α] {m : List (α × β)} {q : α}
    (h : mapFind m q = none) : mapErase m q = m := by
  induction m with
  | nil => simp [mapErase]
  | cons p t ih =>
    obtain ⟨k, v⟩ := p
    by_cases hk : q = k
    · simp [mapFind, hk] at h
    · simp [mapFind, hk] at h
      simp [mapErase, hk, ih h]

theorem mapErase_append [DecidableEq α] (l₁ l₂ : List (α × β)) (q : α) :
    mapErase (l₁ ++ l₂) q = mapErase l₁ q ++ mapErase l₂ q := by
  induction l₁ with
  | nil => simp [mapErase]
  | cons p t ih =>
    obtain ⟨k, v⟩ := p
    by_cases h : q = k
    · subst h; simp [mapErase, ih]
    · simp [mapErase, h, ih]

theorem mapErase_erase [DecidableEq α] (m : List (α × β)) (q : α) :
    mapErase (mapErase m q) q = mapErase m q := by
  induction m with
  | nil => simp [mapErase]
  | cons p t ih =>
    obtain ⟨k, v⟩ := p
    by_cases h : q = k
    · subst h; simp [mapErase, ih]
    · simp [mapErase, h, ih]

theorem mapErase_insert [DecidableEq α] (m : List (α × β)) (k : α) (v : β) :
    mapErase (mapInsert m k v) k = mapErase m k := by
  simp [mapInsert, mapErase_append, mapErase_erase, mapErase]

theorem mapFind_insert_self [DecidableEq α] (m : List (α × β)) (k : α) (v : β) :
    mapFind (mapInsert m k v) k = some v := by
  simp [mapInsert, mapFind_append, mapFind_erase_self, mapFind]

theorem mapFind_insert_ne [DecidableEq α] (m : List (α × β)) {q k : α} (v : β) (h : q ≠ k) :
    mapFind (mapInsert m k v) q = mapFind m q := by
  rw [mapInsert, mapFind_append, mapFind_erase_ne m h]
  cases hf : mapFind m q <;> simp [mapFind, h]

theorem mapErase_length [DecidableEq α] (m : List (α × β)) (q : α) :
    (mapErase m q).length ≤ m.length := by
  induction m with
  | nil => simp [mapErase]
  | cons p t ih =>
    obtain ⟨k, v⟩ := p
    by_cases h : q = k
    · subst h
      simp only [mapErase, if_pos rfl, List.length_cons]
      simp only [↓reduceIte]
      exact le_trans ih (Nat.le_succ _)
    · simp only [mapErase, if_neg h, List.length_cons]
      omega

theorem mapInsert_length [DecidableEq α] (m : List (α × β)) (k : α) (v : β) :
    (mapInsert m k v).length ≤ m.length + 1 := by
  have := mapErase_length m k
  simp [mapInsert]
  omega

theorem mapFind_mem [DecidableEq α] {m : List (α × β)} {q : α} {v : β}
    (h : mapFind m q = some v) : (q, v) ∈ m := by
  induction m with
  | nil => simp [mapFind] at h
  | cons p t ih =>
    obtain ⟨k, w⟩ := p
    by_cases hk : q = k
    · simp [mapFind, hk] at h
      simp [hk, h]
    · simp [mapFind, hk] at h
      exact List.mem_cons_of_mem _ (ih h)

theorem mapFind_none_not_mem [DecidableEq α] {m : List (α × β)} {q : α}
    (h : mapFind m q = none) (v : β) : (q, v) ∉ m := by
  induction m with
  | nil => simp
  | cons p t ih =>
    obtain ⟨k, w⟩ := p
    by_cases hk : q = k
    · simp [mapFind, hk] at h
    · simp [mapFind, hk] at h
      simp [ih h]
      intro he
      exact absurd he hk

/-! ### Bitmask lemmas -/

theorem land_eq_right_iff (u r : Nat) :
    u &&& r = r ↔ ∀ i, r.testBit i = true → u.testBit i = true := by
  constructor
  · intro h i hr
    have hbit := congrArg (fun n => n.testBit i) h
    simp only [Nat.testBit_land, hr, Bool.and_true] at hbit
    exact hbit
  · intro h
    apply Nat.eq_of_testBit_eq
    intro i
    rw [Nat.testBit_land]
    cases hr : r.testBit i with
    | true => simp [h i hr]
    | false => simp

theorem land_admin_iff (u : Nat) :
    u &&& Administrator = Administrator ↔ u.testBit 5 = true := by
  have h32 : Administrator = 2 ^ 5 := by norm_num [Administrator]
  rw [h32, land_eq_right_iff]
  constructor
  · intro h
    exact h 5 Nat.testBit_two_pow_self
  · intro h i hi
    rcases eq_or_ne 5 i with h5 | h5
    · rw [← h5]; exact h
    · rw [Nat.testBit_two_pow_of_ne h5] at hi
      exact absurd hi (by simp)

/-! ### Branch equations for RegisterPermission -/

theorem RegisterPermission_eq_found (s : PermState) (name : String)
    (persistResult : Option GoError) (p : Nat)
    (h : mapFind s.nameToPermission name = some p) :
    RegisterPermission s name persistResult = (Except.ok p, s) := by
  unfold RegisterPermission
  simp only [h]

theorem RegisterPermission_eq_full (s : PermState) (name : String)
    (persistResult : Option GoError)
    (hname : mapFind s.nameToPermission name = none) (h : s.nextBit ≥ 64) :
    RegisterPermission s name persistResult =
      (Except.error GoError.maxPermissionsReached, s) := by
  unfold RegisterPermission
  simp only [hname]
  rw [if_pos h]

theorem RegisterPermission_eq_fail (s : PermState) (name : String) (e : GoError)
    (hname : mapFind s.nameToPermission name = none) (hlt : s.nextBit < 64)
    (hdb : s.dbAttached = true) :
    RegisterPermission s name (some e) =
      (Except.error e,
        { s with
          nameToPermission :=
            mapErase (mapInsert s.nameToPermission name ((1 <<< s.nextBit) % 2 ^ 64)) name,
          permissionToName :=
            mapErase (mapInsert s.permissionToName ((1 <<< s.nextBit) % 2 ^ 64) name)
              ((1 <<< s.nextBit) % 2 ^ 64),
          nextBit := s.nextBit + 1 - 1 }) := by
  unfold RegisterPermission
  simp only [hname]
  rw [if_neg (by omega : ¬ s.nextBit ≥ 64)]
  simp only [hdb, ↓reduceIte]

theorem RegisterPermission_eq_ok (s : PermState) (name : String)
    (persistResult : Option GoError)
    (hname : mapFind s.nameToPermission name = none) (hlt : s.nextBit < 64)
    (hok : s.dbAttached = false ∨ persistResult = none) :
    RegisterPermission s name persistResult =
      (Except.ok ((1 <<< s.nextBit) % 2 ^ 64),
        { s with
          nextBit := s.nextBit + 1,
          nameToPermission := mapInsert s.nameToPermission name ((1 <<< s.nextBit) % 2 ^ 64),
          permissionToName := mapInsert s.permissionToName ((1 <<< s.nextBit) % 2 ^ 64) name }) := by
  unfold RegisterPermission
  simp only [hname]
  rw [if_neg (by omega : ¬ s.nextBit ≥ 64)]
  cases hdbv : s.dbAttached with
  | false => rfl
  | true =>
    rcases hok with hdb | hpr
    · rw [hdbv] at hdb
      exact absurd hdb (by simp)
    · subst hpr
      rfl

/-! ### Claim theorems: permission engine -/

/-- C3: `HasPermission(held, required)` is true when `held` contains the
Administrator (superuser) bit, and otherwise true exactly when every bit set
in `required` is also set in `held`; it is true on `(X, X)` for non-zero `X`
and true whenever `required` is a bitmask subset of `held`. -/
theorem HasPermission_characterization (held required : Nat)
    (_hheld : held < 2 ^ 64) (_hrequired : required < 2 ^ 64) :
    (HasPermission held required = true ↔
      (held.testBit 5 = true ∨
        ∀ i, required.testBit i = true → held.testBit i = true)) ∧
    (held ≠ 0 → HasPermission held held = true) ∧
    ((∀ i, required.testBit i = true → held.testBit i = true) →
      HasPermission held required = true) := by
  refine ⟨?_, ?_, ?_⟩
  · unfold HasPermission
    by_cases hA : held &&& Administrator = Administrator
    · rw [if_pos hA]
      simp only [true_iff]
      exact Or.inl ((land_admin_iff held).mp hA)
    · rw [if_neg hA, decide_eq_true_eq]
      constructor
      · intro h
        exact Or.inr ((land_eq_right_iff _ _).mp h)
      · rintro (h5 | hsub)
        · exact absurd ((land_admin_iff held).mpr h5) hA
        · exact (land_eq_right_iff _ _).mpr hsub
  · intro _
    unfold HasPermission
    by_cases hA : held &&& Administrator = Administrator
    · rw [if_pos hA]
    · rw [if_neg hA, decide_eq_true_eq]
      exact (land_eq_right_iff _ _).mpr (fun i hi => hi)
  · intro hsub
    unfold HasPermission
    by_cases hA : held &&& Administrator = Administrator
    · rw [if_pos hA]
    · rw [if_neg hA, decide_eq_true_eq]
      exact (land_eq_right_iff _ _).mpr hsub

/-- C3 witness at `held = 7`, `required = 3`. -/
theorem HasPermission_characterization_spotcheck :
    (7 : Nat) < 2 ^ 64 ∧ (3 : Nat) < 2 ^ 64 ∧
    ((HasPermission 7 3 = true ↔
        ((7 : Nat).testBit 5 = true ∨
          ∀ i, (3 : Nat).testBit i = true → (7 : Nat).testBit i = true)) ∧
      ((7 : Nat) ≠ 0 → HasPermission 7 7 = true) ∧
      ((∀ i, (3 : Nat).testBit i = true → (7 : Nat).testBit i = true) →
        HasPermission 7 3 = true)) :=
  ⟨by norm_num, by norm_num,
    HasPermission_characterization 7 3 (by norm_num) (by norm_num)⟩

/-- C2: with the cursor at 64 or beyond, registering an unmapped name fails
with the capacity error and changes nothing; moreover a register call
preserves the invariant "number of registered capabilities ≤ cursor ≤ 64",
so the number of distinct registered capabilities never exceeds 64. -/
theorem RegisterPermission_capacity (s : PermState) (name : String)
    (persistResult : Option GoError) :
    (mapFind s.nameToPermission name = none → s.nextBit ≥ 64 →
      RegisterPermission s name persistResult =
        (Except.error GoError.maxPermissionsReached, s)) ∧
    (s.nameToPermission.length ≤ s.nextBit → s.nextBit ≤ 64 →
      (RegisterPermission s name persistResult).2.nameToPermission.length ≤
          (RegisterPermission s name persistResult).2.nextBit ∧
        (RegisterPermission s name persistResult).2.nextBit ≤ 64 ∧
        (RegisterPermission s name persistResult).2.nameToPermission.length ≤ 64) := by
  constructor
  · intro hname hbit
    unfold RegisterPermission
    simp only [hname]
    rw [if_pos hbit]
  · intro hlen hnb
    cases hf : mapFind s.nameToPermission name with
    | some p =>
      rw [RegisterPermission_eq_found s name persistResult p hf]
      exact ⟨hlen, hnb, le_trans hlen hnb⟩
    | none =>
      by_cases hge : s.nextBit ≥ 64
      · rw [RegisterPermission_eq_full s name persistResult hf hge]
        exact ⟨hlen, hnb, le_trans hlen hnb⟩
      · have hins := mapInsert_length s.nameToPermission name ((1 <<< s.nextBit) % 2 ^ 64)
        have hroll :
            (mapErase (mapInsert s.nameToPermission name ((1 <<< s.nextBit) % 2 ^ 64))
              name).length ≤ s.nameToPermission.length := by
          rw [mapErase_insert]
          exact mapErase_length _ _
        cases hdbv : s.dbAttached with
        | true =>
          cases persistResult with
          | some e =>
            rw [RegisterPermission_eq_fail s name e hf (by omega) hdbv]
            refine ⟨?_, ?_, ?_⟩ <;> dsimp only <;> omega
          | none =>
            rw [RegisterPermission_eq_ok s name none hf (by omega) (Or.inr rfl)]
            refine ⟨?_, ?_, ?_⟩ <;> dsimp only <;> omega
        | false =>
          rw [RegisterPermission_eq_ok s name persistResult hf (by omega) (Or.inl hdbv)]
          refine ⟨?_, ?_, ?_⟩ <;> dsimp only <;> omega

/-- C2 witness: the 7th word fails at a full cursor with everything intact,
and the invariant is preserved at the seeded registry. -/
theorem RegisterPermission_capacity_spotcheck :
    mapFind ({ initialRegistry with nextBit := 64 } : PermState).nameToPermission
        "ViewPosts" = none ∧
    ({ initialRegistry with nextBit := 64 } : PermState).nextBit ≥ 64 ∧
    RegisterPermission { initialRegistry with nextBit := 64 } "ViewPosts" none =
      (Except.error GoError.maxPermissionsReached,
        { initialRegistry with nextBit := 64 }) ∧
    initialRegistry.nameToPermission.length ≤ initialRegistry.nextBit ∧
    initialRegistry.nextBit ≤ 64 ∧
    ((RegisterPermission initialRegistry "ViewPosts" none).2.nameToPermission.length ≤
        (RegisterPermission initialRegistry "ViewPosts" none).2.nextBit ∧
      (RegisterPermission initialRegistry "ViewPosts" none).2.nextBit ≤ 64 ∧
      (RegisterPermission initialRegistry "ViewPosts" none).2.nameToPermission.length ≤ 64) :=
  ⟨by decide, by decide,
    (RegisterPermission_capacity { initialRegistry with nextBit := 64 } "ViewPosts" none).1
      (by decide) (by decide),
    by decide, by decide,
    (RegisterPermission_capacity initialRegistry "ViewPosts" none).2
      (by decide) (by decide)⟩

/-- C1: with a store attached, a fresh name, a free bit below 64, and the
fresh bit's mask not yet in the reverse map (true of every reachable engine
state), a persistence failure surfaces that error verbatim and restores the
name map, the reverse map and the cursor exactly. -/
theorem RegisterPermission_rollback (s : PermState) (name : String) (e : GoError)
    (hdb : s.dbAttached = true)
    (hname : mapFind s.nameToPermission name = none)
    (hbit : s.nextBit < 64)
    (hperm : mapFind s.permissionToName ((1 <<< s.nextBit) % 2 ^ 64) = none) :
    RegisterPermission s name (some e) = (Except.error e, s) := by
  rw [RegisterPermission_eq_fail s name e hname hbit hdb]
  have h1 : mapErase (mapInsert s.nameToPermission name ((1 <<< s.nextBit) % 2 ^ 64))
      name = s.nameToPermission := by
    rw [mapErase_insert, mapErase_of_find_none hname]
  have h2 : mapErase (mapInsert s.permissionToName ((1 <<< s.nextBit) % 2 ^ 64) name)
      ((1 <<< s.nextBit) % 2 ^ 64) = s.permissionToName := by
    rw [mapErase_insert, mapErase_of_find_none hperm]
  rw [h1, h2, Nat.add_sub_cancel]

/-- C1 witness: a failing persist of "ViewPosts" on the seeded registry with
a store attached returns the error and the untouched state. -/
theorem RegisterPermission_rollback_spotcheck :
    ({ initialRegistry with dbAttached := true } : PermState).dbAttached = true ∧
    mapFind ({ initialRegistry with dbAttached := true } : PermState).nameToPermission
        "ViewPosts" = none ∧
    ({ initialRegistry with dbAttached := true } : PermState).nextBit < 64 ∧
    mapFind ({ initialRegistry with dbAttached := true } : PermState).permissionToName
        ((1 <<< ({ initialRegistry with dbAttached := true } : PermState).nextBit) % 2 ^ 64) =
      none ∧
    RegisterPermission { initialRegistry with dbAttached := true } "ViewPosts"
        (some (GoError.dbError "disk full")) =
      (Except.error (GoError.dbError "disk full"),
        { initialRegistry with dbAttached := true }) :=
  ⟨rfl, by decide, by decide, by decide,
    RegisterPermission_rollback { initialRegistry with dbAttached := true } "ViewPosts"
      (GoError.dbError "disk full") rfl (by decide) (by decide) (by decide)⟩

/-- C6: registering a fresh name and then registering the same name again
yields the same capability both times, advances the cursor by exactly one
bit in total, and the second call is error-free and leaves the state
unchanged. -/
theorem RegisterPermission_idempotent (s : PermState) (name : String)
    (persistResult2 : Option GoError)
    (hname : mapFind s.nameToPermission name = none) (hbit : s.nextBit < 64) :
    ∃ perm s1,
      RegisterPermission s name none = (Except.ok perm, s1) ∧
      s1.nextBit = s.nextBit + 1 ∧
      RegisterPermission s1 name persistResult2 = (Except.ok perm, s1) := by
  refine ⟨(1 <<< s.nextBit) % 2 ^ 64,
    { s with
      nextBit := s.nextBit + 1,
      nameToPermission := mapInsert s.nameToPermission name ((1 <<< s.nextBit) % 2 ^ 64),
      permissionToName := mapInsert s.permissionToName ((1 <<< s.nextBit) % 2 ^ 64) name },
    ?_, rfl, ?_⟩
  · exact RegisterPermission_eq_ok s name none hname hbit (Or.inr rfl)
  · exact RegisterPermission_eq_found _ name persistResult2 _
      (mapFind_insert_self s.nameToPermission name ((1 <<< s.nextBit) % 2 ^ 64))

/-- C6 witness: double registration of "ViewPosts" on the seeded registry. -/
theorem RegisterPermission_idempotent_spotcheck :
    mapFind initialRegistry.nameToPermission "ViewPosts" = none ∧
    initialRegistry.nextBit < 64 ∧
    ∃ perm s1,
      RegisterPermission initialRegistry "ViewPosts" none = (Except.ok perm, s1) ∧
      s1.nextBit = initialRegistry.nextBit + 1 ∧
      RegisterPermission s1 "ViewPosts" none = (Except.ok perm, s1) :=
  ⟨by decide, by decide,
    RegisterPermission_idempotent initialRegistry "ViewPosts" none (by decide) (by decide)⟩

/-! ### Lemmas about LoadCustomPermissions -/

theorem loadStep_nextBit (st : PermState) (cp : CustomPermission) :
    (loadStep st cp).nextBit = max st.nextBit (cp.BitPosition + 1) := by
  unfold loadStep
  dsimp only
  by_cases h : cp.BitPosition ≥ st.nextBit
  · rw [if_pos h]
    omega
  · rw [if_neg h]
    omega

theorem LoadCustomPermissions_cons (s : PermState) (cp : CustomPermission)
    (rest : List CustomPermission) :
    LoadCustomPermissions s (cp :: rest) = LoadCustomPermissions (loadStep s cp) rest := rfl

theorem LoadCustomPermissions_nextBit (rows : List CustomPermission) (s : PermState) :
    (LoadCustomPermissions s rows).nextBit = max s.nextBit (maxLoaded rows) := by
  induction rows generalizing s with
  | nil =>
    show s.nextBit = max s.nextBit (maxLoaded [])
    have h0 : maxLoaded [] = 0 := rfl
    rw [h0]
    omega
  | cons cp rest ih =>
    rw [LoadCustomPermissions_cons, ih, loadStep_nextBit]
    have h1 : maxLoaded (cp :: rest) = max (cp.BitPosition + 1) (maxLoaded rest) := rfl
    rw [h1]
    omega

theorem LoadCustomPermissions_find_name_of_unused (rows : List CustomPermission)
    (s : PermState) (q : String) (h : ∀ c ∈ rows, c.Name ≠ q) :
    mapFind (LoadCustomPermissions s rows).nameToPermission q =
      mapFind s.nameToPermission q := by
  induction rows generalizing s with
  | nil => rfl
  | cons cp rest ih =>
    rw [LoadCustomPermissions_cons,
      ih _ (fun c hc => h c (List.mem_cons_of_mem _ hc))]
    unfold loadStep
    dsimp only
    exact mapFind_insert_ne _ _ (Ne.symm (h cp (List.mem_cons_self _ _)))

theorem LoadCustomPermissions_find_perm_of_unused (rows : List CustomPermission)
    (s : PermState) (p : Nat)
    (h : ∀ c ∈ rows, (1 <<< c.BitPosition) % 2 ^ 64 ≠ p) :
    mapFind (LoadCustomPermissions s rows).permissionToName p =
      mapFind s.permissionToName p := by
  induction rows generalizing s with
  | nil => rfl
  | cons cp rest ih =>
    rw [LoadCustomPermissions_cons,
      ih _ (fun c hc => h c (List.mem_cons_of_mem _ hc))]
    unfold loadStep
    dsimp only
    exact mapFind_insert_ne _ _ (Ne.symm (h cp (List.mem_cons_self _ _)))

theorem shiftLeft_mod_of_lt {b : Nat} (hb : b < 64) : (1 <<< b) % 2 ^ 64 = 2 ^ b := by
  rw [Nat.one_shiftLeft]
  exact Nat.mod_eq_of_lt (Nat.pow_lt_pow_right (by norm_num) hb)

theorem LoadCustomPermissions_mem (rows : List CustomPermission) (s : PermState)
    (cp : CustomPermission) (hmem : cp ∈ rows)
    (hnames : (rows.map CustomPermission.Name).Nodup)
    (hbits : (rows.map CustomPermission.BitPosition).Nodup)
    (hlt : ∀ c ∈ rows, c.BitPosition < 64) :
    mapFind (LoadCustomPermissions s rows).nameToPermission cp.Name =
        some ((1 <<< cp.BitPosition) % 2 ^ 64) ∧
      mapFind (LoadCustomPermissions s rows).permissionToName
        ((1 <<< cp.BitPosition) % 2 ^ 64) = some cp.Name := by
  induction rows generalizing s with
  | nil => cases hmem
  | cons c rest ih =>
    have hnames' : (rest.map CustomPermission.Name).Nodup :=
      (List.nodup_cons.mp hnames).2
    have hbits' : (rest.map CustomPermission.BitPosition).Nodup :=
      (List.nodup_cons.mp hbits).2
    have hlt' : ∀ x ∈ rest, x.BitPosition < 64 :=
      fun x hx => hlt x (List.mem_cons_of_mem _ hx)
    rcases List.mem_cons.mp hmem with rfl | hmem'
    · have hnm : ∀ c' ∈ rest, c'.Name ≠ cp.Name := by
        intro c' hc' he
        exact (List.nodup_cons.mp hnames).1 (he ▸ List.mem_map_of_mem _ hc')
      have hpm : ∀ c' ∈ rest, (1 <<< c'.BitPosition) % 2 ^ 64 ≠
          (1 <<< cp.BitPosition) % 2 ^ 64 := by
        intro c' hc' he
        rw [shiftLeft_mod_of_lt (hlt' c' hc'),
          shiftLeft_mod_of_lt (hlt cp (List.mem_cons_self _ _))] at he
        have hbe := Nat.pow_right_injective (le_refl 2) he
        exact (List.nodup_cons.mp hbits).1 (hbe ▸ List.mem_map_of_mem _ hc')
      constructor
      · rw [LoadCustomPermissions_cons,
          LoadCustomPermissions_find_name_of_unused rest _ cp.Name hnm]
        unfold loadStep
        dsimp only
        exact mapFind_insert_self _ _ _
      · rw [LoadCustomPermissions_cons,
          LoadCustomPermissions_find_perm_of_unused rest _ _ hpm]
        unfold loadStep
        dsimp only
        exact mapFind_insert_self _ _ _
    · rw [LoadCustomPermissions_cons]
      exact ih _ hmem' hnames' hbits' hlt'

/-- C7: loading persisted rows puts every row in both maps (under the
store's uniqueness of names and bit positions, with positions in 0..63),
sets the cursor to the maximum of its prior value and one past the largest
loaded position — never backward — and after loading rows at positions 6
and 7 the next registration allocates bit 8 (mask 256). -/
theorem LoadCustomPermissions_spec (s : PermState) (rows : List CustomPermission)
    (cp : CustomPermission) (hmem : cp ∈ rows)
    (hnames : (rows.map CustomPermission.Name).Nodup)
    (hbits : (rows.map CustomPermission.BitPosition).Nodup)
    (hlt : ∀ c ∈ rows, c.BitPosition < 64) :
    (mapFind (LoadCustomPermissions s rows).nameToPermission cp.Name =
        some ((1 <<< cp.BitPosition) % 2 ^ 64) ∧
      mapFind (LoadCustomPermissions s rows).permissionToName
        ((1 <<< cp.BitPosition) % 2 ^ 64) = some cp.Name) ∧
    (LoadCustomPermissions s rows).nextBit = max s.nextBit (maxLoaded rows) ∧
    s.nextBit ≤ (LoadCustomPermissions s rows).nextBit ∧
    (LoadCustomPermissions initialRegistry
        [{ Name := "ViewPosts", BitPosition := 6 },
         { Name := "ManageReports", BitPosition := 7 }]).nextBit = 8 ∧
    (RegisterPermission
        (LoadCustomPermissions initialRegistry
          [{ Name := "ViewPosts", BitPosition := 6 },
           { Name := "ManageReports", BitPosition := 7 }])
        "NewCap" none).1 = Except.ok 256 := by
  refine ⟨LoadCustomPermissions_mem rows s cp hmem hnames hbits hlt,
    LoadCustomPermissions_nextBit rows s, ?_, by decide, rfl⟩
  rw [LoadCustomPermissions_nextBit]
  omega

/-- C7 witness: the restart-reload scenario rows, looked up at the first row. -/
theorem LoadCustomPermissions_spec_spotcheck :
    ({ Name := "ViewPosts", BitPosition := 6 } : CustomPermission) ∈
        [({ Name := "ViewPosts", BitPosition := 6 } : CustomPermission),
         { Name := "ManageReports", BitPosition := 7 }] ∧
    (([({ Name := "ViewPosts", BitPosition := 6 } : CustomPermission),
        { Name := "ManageReports", BitPosition := 7 }]).map
      CustomPermission.Name).Nodup ∧
    (mapFind (LoadCustomPermissions initialRegistry
          [{ Name := "ViewPosts", BitPosition := 6 },
           { Name := "ManageReports", BitPosition := 7 }]).nameToPermission
        "ViewPosts" = some ((1 <<< 6) % 2 ^ 64) ∧
      (LoadCustomPermissions initialRegistry
          [{ Name := "ViewPosts", BitPosition := 6 },
           { Name := "ManageReports", BitPosition := 7 }]).nextBit =
        max initialRegistry.nextBit
          (maxLoaded
            [{ Name := "ViewPosts", BitPosition := 6 },
             { Name := "ManageReports", BitPosition := 7 }])) := by
  have h := LoadCustomPermissions_spec initialRegistry
    [{ Name := "ViewPosts", BitPosition := 6 },
     { Name := "ManageReports", BitPosition := 7 }]
    { Name := "ViewPosts", BitPosition := 6 }
    (List.mem_cons_self _ _) (by decide) (by decide) (by decide)
  exact ⟨List.mem_cons_self _ _, by decide, h.1.1, h.2.1⟩

/-! ### Lemmas about the schema registry -/

theorem contains_false_iff {γ : Type v} [BEq γ] [LawfulBEq γ] (l : List γ) (a : γ) :
    l.contains a = false ↔ a ∉ l := by
  rw [← Bool.not_eq_true]
  constructor
  · intro h hm
    exact h (List.elem_iff.mpr hm)
  · intro h hc
    exact h (List.elem_iff.mp hc)

theorem RegisterSchema_hidden (naming : String → String) (st : RegState) (model : GoModel)
    (h : hasHiddenField model = true) : RegisterSchema naming st model = st := by
  unfold RegisterSchema
  simp only [h, ↓reduceIte]

theorem RegisterSchema_not_hidden (naming : String → String) (st : RegState) (model : GoModel)
    (h : hasHiddenField model = false) :
    RegisterSchema naming st model =
      { registry :=
          mapInsert st.registry (getTableName naming model)
            { TableName := getTableName naming model,
              AdminOnly := hasAdminOnlyField model,
              Fields := extractFields model },
        aliases :=
          if singularize (getTableName naming model) ≠ getTableName naming model then
            mapInsert st.aliases (singularize (getTableName naming model))
              (getTableName naming model)
          else st.aliases } := by
  unfold RegisterSchema
  simp only [h]
  rfl

theorem ValidateBody_eq_none (st : RegState) (tableName : String) (body : List String)
    (h : mapFind st.registry tableName = none) :
    ValidateBody st tableName body = ([], []) := by
  unfold ValidateBody
  simp only [h]

theorem ValidateBody_eq_some (st : RegState) (tableName : String) (body : List String)
    (meta : SchemaMetadata) (h : mapFind st.registry tableName = some meta) :
    ValidateBody st tableName body =
      (meta.Fields.filterMap (fun f =>
          if f.Required && !f.PrimaryKey && !(body.contains f.Name) then some f.Name
          else none),
        body.filter (fun key => !((meta.Fields.map FieldMetadata.Name).contains key))) := by
  unfold ValidateBody
  simp only [h]

/-! ### Claim theorems: schema registry -/

/-- C5: `ValidateBody` reports as missing exactly the required, non-primary
field names absent from the body, as unknown exactly the body keys outside
the type's field-name set, and returns two empty lists (no error) for an
unregistered canonical name. -/
theorem ValidateBody_spec (st : RegState) (tableName : String) (body : List String) :
    (mapFind st.registry tableName = none →
      ValidateBody st tableName body = ([], [])) ∧
    (∀ meta, mapFind st.registry tableName = some meta →
      ∀ x : String,
        (x ∈ (ValidateBody st tableName body).1 ↔
          ∃ f ∈ meta.Fields,
            f.Name = x ∧ f.Required = true ∧ f.PrimaryKey = false ∧ x ∉ body) ∧
        (x ∈ (ValidateBody st tableName body).2 ↔
          x ∈ body ∧ x ∉ meta.Fields.map FieldMetadata.Name)) := by
  constructor
  · intro h
    exact ValidateBody_eq_none st tableName body h
  · intro meta h x
    rw [ValidateBody_eq_some st tableName body meta h]
    constructor
    · simp only [List.mem_filterMap]
      constructor
      · rintro ⟨f, hf, heq⟩
        by_cases hc : (f.Required && !f.PrimaryKey && !(body.contains f.Name)) = true
        · rw [if_pos hc] at heq
          obtain rfl := Option.some.inj heq
          simp only [Bool.and_eq_true, Bool.not_eq_true'] at hc
          exact ⟨f, hf, rfl, hc.1.1, hc.1.2,
            (contains_false_iff body f.Name).mp hc.2⟩
        · rw [if_neg hc] at heq
          cases heq
      · rintro ⟨f, hf, rfl, hreq, hpk, hnb⟩
        refine ⟨f, hf, ?_⟩
        have hc : (f.Required && !f.PrimaryKey && !(body.contains f.Name)) = true := by
          simp only [Bool.and_eq_true, Bool.not_eq_true']
          exact ⟨⟨hreq, hpk⟩, (contains_false_iff body f.Name).mpr hnb⟩
        rw [if_pos hc]
    · rw [List.mem_filter]
      constructor
      · rintro ⟨hm, hp⟩
        rw [Bool.not_eq_true'] at hp
        exact ⟨hm, (contains_false_iff _ x).mp hp⟩
      · rintro ⟨hm, hp⟩
        refine ⟨hm, ?_⟩
        rw [Bool.not_eq_true']
        exact (contains_false_iff _ x).mpr hp

/-- C5 witness: the sample "posts" collection (required A and B, primary key
ID), validated against the body with keys A and Z, looked at name B. -/
theorem ValidateBody_spec_spotcheck :
    mapFind postsState.registry "posts" = some postsMeta ∧
    ("B" ∈ (ValidateBody postsState "posts" ["A", "Z"]).1 ↔
      ∃ f ∈ postsMeta.Fields,
        f.Name = "B" ∧ f.Required = true ∧ f.PrimaryKey = false ∧
          "B" ∉ ["A", "Z"]) ∧
    ("Z" ∈ (ValidateBody postsState "posts" ["A", "Z"]).2 ↔
      "Z" ∈ ["A", "Z"] ∧ "Z" ∉ postsMeta.Fields.map FieldMetadata.Name) := by
  have hB := (ValidateBody_spec postsState "posts" ["A", "Z"]).2 postsMeta (by decide) "B"
  have hZ := (ValidateBody_spec postsState "posts" ["A", "Z"]).2 postsMeta (by decide) "Z"
  exact ⟨by decide, hB.1, hZ.2⟩

/-! ### Branch equations for ResolveTableName -/

theorem ResolveTableName_eq_canonical (naming : String → String) (st : RegState)
    (name : String) (m : SchemaMetadata) (h : mapFind st.registry name = some m) :
    ResolveTableName naming st name = some name := by
  unfold ResolveTableName
  simp only [h]

theorem ResolveTableName_eq_alias (naming : String → String) (st : RegState)
    (name a : String) (h1 : mapFind st.registry name = none)
    (h2 : mapFind st.aliases name = some a) :
    ResolveTableName naming st name = some a := by
  unfold ResolveTableName
  simp only [h1, h2]

theorem ResolveTableName_eq_derived (naming : String → String) (st : RegState)
    (name : String) (m : SchemaMetadata) (h1 : mapFind st.registry name = none)
    (h2 : mapFind st.aliases name = none)
    (h3 : mapFind st.registry (naming name) = some m) :
    ResolveTableName naming st name = some (naming name) := by
  unfold ResolveTableName
  simp only [h1, h2, h3]

theorem ResolveTableName_eq_derived_alias (naming : String → String) (st : RegState)
    (name a : String) (h1 : mapFind st.registry name = none)
    (h2 : mapFind st.aliases name = none)
    (h3 : mapFind st.registry (naming name) = none)
    (h4 : mapFind st.aliases (naming name) = some a) :
    ResolveTableName naming st name = some a := by
  unfold ResolveTableName
  simp only [h1, h2, h3, h4]

theorem ResolveTableName_eq_notfound (naming : String → String) (st : RegState)
    (name : String) (h1 : mapFind st.registry name = none)
    (h2 : mapFind st.aliases name = none)
    (h3 : mapFind st.registry (naming name) = none)
    (h4 : mapFind st.aliases (naming name) = none) :
    ResolveTableName naming st name = none := by
  unfold ResolveTableName
  simp only [h1, h2, h3, h4]

theorem ResolveTableName_mem (naming : String → String) (st : RegState)
    (name tbl : String) (h : ResolveTableName naming st name = some tbl) :
    (∃ m, (tbl, m) ∈ st.registry) ∨ ∃ k, (k, tbl) ∈ st.aliases := by
  cases h1 : mapFind st.registry name with
  | some m =>
    rw [ResolveTableName_eq_canonical naming st name m h1] at h
    obtain rfl := Option.some.inj h
    exact Or.inl ⟨m, mapFind_mem h1⟩
  | none =>
    cases h2 : mapFind st.aliases name with
    | some a =>
      rw [ResolveTableName_eq_alias naming st name a h1 h2] at h
      obtain rfl := Option.some.inj h
      exact Or.inr ⟨name, mapFind_mem h2⟩
    | none =>
      cases h3 : mapFind st.registry (naming name) with
      | some m =>
        rw [ResolveTableName_eq_derived naming st name m h1 h2 h3] at h
        obtain rfl := Option.some.inj h
        exact Or.inl ⟨m, mapFind_mem h3⟩
      | none =>
        cases h4 : mapFind st.aliases (naming name) with
        | some a =>
          rw [ResolveTableName_eq_derived_alias naming st name a h1 h2 h3 h4] at h
          obtain rfl := Option.some.inj h
          exact Or.inr ⟨naming name, mapFind_mem h4⟩
        | none =>
          rw [ResolveTableName_eq_notfound naming st name h1 h2 h3 h4] at h
          cases h

/-- C4: a type with a top-level member whose lowercase name equals "hidden"
is never inserted: register is a no-op on both the registry and the alias
index, and — provided its table name was not already present as a canonical
name or as an alias target — the type is absent from the listAll snapshot
and no name resolves to it. -/
theorem RegisterSchema_concealed (naming : String → String) (st : RegState)
    (model : GoModel) (hh : ∃ f ∈ model.fields, strToLower f.name = "hidden")
    (hreg : mapFind st.registry (getTableName naming model) = none)
    (hal : ∀ p ∈ st.aliases, p.2 ≠ getTableName naming model) :
    RegisterSchema naming st model = st ∧
    getTableName naming model ∉
      (GetAllRegisteredSchemas (RegisterSchema naming st model)).map Prod.fst ∧
    ∀ q : String,
      ResolveTableName naming (RegisterSchema naming st model) q ≠
        some (getTableName naming model) := by
  have hhb : hasHiddenField model = true := by
    unfold hasHiddenField
    rw [List.any_eq_true]
    obtain ⟨f, hf, he⟩ := hh
    exact ⟨f, hf, beq_iff_eq.mpr he⟩
  have h0 := RegisterSchema_hidden naming st model hhb
  refine ⟨h0, ?_, ?_⟩
  · rw [h0]
    unfold GetAllRegisteredSchemas
    rw [List.map_map]
    intro hmem
    obtain ⟨p, hp, hpe⟩ := List.mem_map.mp hmem
    have hped : p.1 = getTableName naming model := hpe
    apply mapFind_none_not_mem hreg p.2
    rw [← hped, Prod.mk.eta]
    exact hp
  · rw [h0]
    intro q hq
    rcases ResolveTableName_mem naming st q _ hq with ⟨m, hm⟩ | ⟨k, hk⟩
    · exact mapFind_none_not_mem hreg m hm
    · exact hal (k, getTableName naming model) hk rfl

/-- C4 witness: registering a concealed model into the empty registry. -/
theorem RegisterSchema_concealed_spotcheck :
    (∃ f ∈ secretModel.fields, strToLower f.name = "hidden") ∧
    mapFind emptyRegState.registry (getTableName (fun s => s) secretModel) = none ∧
    RegisterSchema (fun s => s) emptyRegState secretModel = emptyRegState ∧
    ∀ q : String,
      ResolveTableName (fun s => s)
          (RegisterSchema (fun s => s) emptyRegState secretModel) q ≠
        some (getTableName (fun s => s) secretModel) := by
  have h := RegisterSchema_concealed (fun s => s) emptyRegState secretModel
    (by decide) (by decide) (by intro p hp; exact absurd hp (List.not_mem_nil p))
  exact ⟨by decide, by decide, h.1, h.2.2⟩

/-- C8: `ResolveTableName` tries the canonical-name map, the alias table,
the derived (gorm-naming) form against the canonical map, then the alias
table again, in that order; it misses only when all four miss; a freshly
registered (non-concealed) type resolves to its canonical name; and its
singular form, when different from the canonical name and not itself a
canonical name, resolves to the same canonical name. -/
theorem ResolveTableName_spec (naming : String → String) (st : RegState) (name : String) :
    (ResolveTableName naming st name = none ↔
      mapFind st.registry name = none ∧ mapFind st.aliases name = none ∧
        mapFind st.registry (naming name) = none ∧
        mapFind st.aliases (naming name) = none) ∧
    (∀ m, mapFind st.registry name = some m →
      ResolveTableName naming st name = some name) ∧
    (∀ a, mapFind st.registry name = none → mapFind st.aliases name = some a →
      ResolveTableName naming st name = some a) ∧
    (∀ m, mapFind st.registry name = none → mapFind st.aliases name = none →
      mapFind st.registry (naming name) = some m →
      ResolveTableName naming st name = some (naming name)) ∧
    (∀ a, mapFind st.registry name = none → mapFind st.aliases name = none →
      mapFind st.registry (naming name) = none →
      mapFind st.aliases (naming name) = some a →
      ResolveTableName naming st name = some a) ∧
    (∀ model, hasHiddenField model = false →
      ResolveTableName naming (RegisterSchema naming st model)
        (getTableName naming model) = some (getTableName naming model)) ∧
    (∀ model, hasHiddenField model = false →
      singularize (getTableName naming model) ≠ getTableName naming model →
      mapFind st.registry (singularize (getTableName naming model)) = none →
      ResolveTableName naming (RegisterSchema naming st model)
        (singularize (getTableName naming model)) =
        some (getTableName naming model)) := by
  refine ⟨?_, ?_, ?_, ?_, ?_, ?_, ?_⟩
  · constructor
    · intro h
      cases h1 : mapFind st.registry name with
      | some m => rw [ResolveTableName_eq_canonical naming st name m h1] at h; cases h
      | none =>
        cases h2 : mapFind st.aliases name with
        | some a => rw [ResolveTableName_eq_alias naming st name a h1 h2] at h; cases h
        | none =>
          cases h3 : mapFind st.registry (naming name) with
          | some m =>
            rw [ResolveTableName_eq_derived naming st name m h1 h2 h3] at h; cases h
          | none =>
            cases h4 : mapFind st.aliases (naming name) with
            | some a =>
              rw [ResolveTableName_eq_derived_alias naming st name a h1 h2 h3 h4] at h
              cases h
            | none => exact ⟨rfl, rfl, rfl, rfl⟩
    · rintro ⟨h1, h2, h3, h4⟩
      exact ResolveTableName_eq_notfound naming st name h1 h2 h3 h4
  · intro m h1
    exact ResolveTableName_eq_canonical naming st name m h1
  · intro a h1 h2
    exact ResolveTableName_eq_alias naming st name a h1 h2
  · intro m h1 h2 h3
    exact ResolveTableName_eq_derived naming st name m h1 h2 h3
  · intro a h1 h2 h3 h4
    exact ResolveTableName_eq_derived_alias naming st name a h1 h2 h3 h4
  · intro model hm
    rw [RegisterSchema_not_hidden naming st model hm]
    exact ResolveTableName_eq_canonical naming _ _ _
      (mapFind_insert_self st.registry (getTableName naming model) _)
  · intro model hm hne hsing
    have hreg' : mapFind (RegisterSchema naming st model).registry
        (singularize (getTableName naming model)) = none := by
      rw [RegisterSchema_not_hidden naming st model hm]
      exact (mapFind_insert_ne st.registry _ hne).trans hsing
    have halias : mapFind (RegisterSchema naming st model).aliases
        (singularize (getTableName naming model)) =
        some (getTableName naming model) := by
      rw [RegisterSchema_not_hidden naming st model hm]
      show mapFind
        (if singularize (getTableName naming model) ≠ getTableName naming model then
          mapInsert st.aliases (singularize (getTableName naming model))
            (getTableName naming model)
        else st.aliases) (singularize (getTableName naming model)) = _
      rw [if_pos hne]
      exact mapFind_insert_self _ _ _
    exact ResolveTableName_eq_alias naming _ _ _ hreg' halias

/-- C8 witness: registering the sample "articles" model into the empty
registry; its canonical name and its singular form both resolve to it, and
an unrelated name misses exactly when all four lookups miss. -/
theorem ResolveTableName_spec_spotcheck :
    hasHiddenField articleModel = false ∧
    singularize (getTableName (fun s => s ++ "s") articleModel) ≠
      getTableName (fun s => s ++ "s") articleModel ∧
    (ResolveTableName (fun s => s ++ "s") emptyRegState "widgets" = none ↔
      mapFind emptyRegState.registry "widgets" = none ∧
        mapFind emptyRegState.aliases "widgets" = none ∧
        mapFind emptyRegState.registry ("widgets" ++ "s") = none ∧
        mapFind emptyRegState.aliases ("widgets" ++ "s") = none) ∧
    ResolveTableName (fun s => s ++ "s")
        (RegisterSchema (fun s => s ++ "s") emptyRegState articleModel)
        (getTableName (fun s => s ++ "s") articleModel) =
      some (getTableName (fun s => s ++ "s") articleModel) ∧
    ResolveTableName (fun s => s ++ "s")
        (RegisterSchema (fun s => s ++ "s") emptyRegState articleModel)
        (singularize (getTableName (fun s => s ++ "s") articleModel)) =
      some (getTableName (fun s => s ++ "s") articleModel) := by
  have h := ResolveTableName_spec (fun s => s ++ "s") emptyRegState "widgets"
  exact ⟨by decide, by decide, h.1,
    h.2.2.2.2.2.1 articleModel (by decide),
    h.2.2.2.2.2.2 articleModel (by decide) (by decide) (by decide)⟩

/-! ### Flattening of embedded structs -/

theorem extractFieldsRecursive_flatten (f : GoField) (rest : List GoField)
    (ha : f.anonymous = true) (hs : f.isStruct = true) :
    extractFieldsRecursive (f :: rest) =
      extractFieldsRecursive f.sub ++ extractFieldsRecursive rest := by
  cases f with
  | mk n g j t a s sub =>
    dsimp only [GoField.anonymous] at ha
    dsimp only [GoField.isStruct] at hs
    subst ha
    subst hs
    dsimp only [GoField.sub]
    simp [extractFieldsRecursive]

/-- C10: marker detection is non-recursive. If no top-level member is named
"hidden"/"adminonly" (lowercased) — even when such markers sit inside an
embedded struct below the top level — the concealment and restriction scans
both come back false, the type is registered with restricted = false, and
yet `extractFieldsRecursive` flattens the embedded struct's members into the
descriptor list in place. -/
theorem markerScan_top_level_only (naming : String → String) (st : RegState)
    (model : GoModel)
    (_hEmb : ∃ f ∈ model.fields, f.anonymous = true ∧ f.isStruct = true ∧
      ∃ g ∈ f.sub, strToLower g.name = "hidden" ∨ strToLower g.name = "adminonly")
    (hTopH : ∀ f ∈ model.fields, strToLower f.name ≠ "hidden")
    (hTopA : ∀ f ∈ model.fields, strToLower f.name ≠ "adminonly") :
    hasHiddenField model = false ∧
    hasAdminOnlyField model = false ∧
    mapFind (RegisterSchema naming st model).registry (getTableName naming model) =
      some { TableName := getTableName naming model, AdminOnly := false,
             Fields := extractFields model } ∧
    ∀ (f : GoField) (rest : List GoField), f.anonymous = true → f.isStruct = true →
      extractFieldsRecursive (f :: rest) =
        extractFieldsRecursive f.sub ++ extractFieldsRecursive rest := by
  have hH : hasHiddenField model = false := by
    unfold hasHiddenField
    rw [List.any_eq_false]
    intro f hf
    simp only [beq_iff_eq]
    exact hTopH f hf
  have hA : hasAdminOnlyField model = false := by
    unfold hasAdminOnlyField
    rw [List.any_eq_false]
    intro f hf
    simp only [beq_iff_eq]
    exact hTopA f hf
  refine ⟨hH, hA, ?_, fun f rest ha hs => extractFieldsRecursive_flatten f rest ha hs⟩
  rw [RegisterSchema_not_hidden naming st model hH, hA]
  exact mapFind_insert_self st.registry (getTableName naming model) _

/-- C10 witness: a model whose embedded struct carries a "Hidden" member;
the model is still registered against the empty registry with restricted
false, and the flattening equation holds for its embedded member. -/
theorem markerScan_top_level_only_spotcheck :
    (∃ f ∈ embeddedMarkerModel.fields, f.anonymous = true ∧ f.isStruct = true ∧
      ∃ g ∈ f.sub, strToLower g.name = "hidden" ∨ strToLower g.name = "adminonly") ∧
    hasHiddenField embeddedMarkerModel = false ∧
    hasAdminOnlyField embeddedMarkerModel = false ∧
    mapFind (RegisterSchema (fun s => s ++ "s") emptyRegState embeddedMarkerModel).registry
        (getTableName (fun s => s ++ "s") embeddedMarkerModel) =
      some { TableName := getTableName (fun s => s ++ "s") embeddedMarkerModel,
             AdminOnly := false, Fields := extractFields embeddedMarkerModel } := by
  have h := markerScan_top_level_only (fun s => s ++ "s") emptyRegState
    embeddedMarkerModel (by decide) (by decide) (by decide)
  exact ⟨by decide, h.1, h.2.1, h.2.2.1⟩

/-! ### Substring-containment characterization -/

theorem prefixCheck_iff (sub : List Char) :
    ∀ l, prefixCheck sub l = true ↔ ∃ r, l = sub ++ r := by
  induction sub with
  | nil =>
    intro l
    constructor
    · intro _
      exact ⟨l, rfl⟩
    · intro _
      rfl
  | cons a as ih =>
    intro l
    cases l with
    | nil =>
      constructor
      · intro h
        cases h
      · rintro ⟨r, hr⟩
        cases hr
    | cons b bs =>
      rw [show prefixCheck (a :: as) (b :: bs) = ((a == b) && prefixCheck as bs) from rfl,
        Bool.and_eq_true]
      constructor
      · rintro ⟨hab, hpc⟩
        obtain ⟨r, hr⟩ := (ih bs).mp hpc
        exact ⟨r, by rw [← beq_iff_eq.mp hab, hr]; rfl⟩
      · rintro ⟨r, hr⟩
        injection hr with hb hbs
        exact ⟨beq_iff_eq.mpr hb.symm, (ih bs).mpr ⟨r, hbs⟩⟩

theorem containsSub_iff (l sub : List Char) :
    containsSub l sub = true ↔ ∃ p q, l = p ++ sub ++ q := by
  induction l with
  | nil =>
    rw [show containsSub [] sub = prefixCheck sub [] from rfl, prefixCheck_iff]
    constructor
    · rintro ⟨r, hr⟩
      exact ⟨[], r, by simpa using hr⟩
    · rintro ⟨p, q, hpq⟩
      have hnil : p ++ sub ++ q = [] := hpq.symm
      rw [List.append_eq_nil] at hnil
      have hnil2 := hnil.1
      rw [List.append_eq_nil] at hnil2
      exact ⟨[], by rw [hnil2.2]; rfl⟩
  | cons a t ih =>
    rw [show containsSub (a :: t) sub = (prefixCheck sub (a :: t) || containsSub t sub)
        from rfl,
      Bool.or_eq_true, prefixCheck_iff, ih]
    constructor
    · rintro (⟨r, hr⟩ | ⟨p, q, hpq⟩)
      · exact ⟨[], r, by simpa using hr⟩
      · exact ⟨a :: p, q, by rw [hpq]; rfl⟩
    · rintro ⟨p, q, hpq⟩
      cases p with
      | nil => exact Or.inl ⟨q, by simpa using hpq⟩
      | cons c p' =>
        injection hpq with h1 h2
        exact Or.inr ⟨p', q, h2⟩

theorem goContains_iff (s sub : String) :
    goContains s sub = true ↔ substrOccurs sub s :=
  containsSub_iff s.data sub.data

/-- C9 counterexample: the storage annotation "PRIMARYKEY" contains the
primary-identifier marker case-insensitively, yet the descriptor extracted
for a member carrying it has isPrimaryIdentifier = false — so the flag is
not a case-insensitive match as claimed. -/
theorem extractFields_primaryKey_case_counterexample :
    containsCaseInsensitive "PRIMARYKEY" "primaryKey" = true ∧
    (extractFieldsRecursive [GoField.mk "ID" "PRIMARYKEY" "" "uint" false false []]).map
        FieldMetadata.PrimaryKey = [false] := by
  constructor
  · decide
  · simp only [extractFieldsRecursive]
    decide

/-- C9 amended: the descriptor's isPrimaryIdentifier flag is true iff the
storage annotation contains the marker spelled "primaryKey" or "primarykey"
— only the K's case may vary; other casings (e.g. all-caps) do not set it. -/
theorem extractFields_primaryKey_flag (n gt jt tn : String)
    (hA : strToLower n ≠ "adminonly") (h1 : gt ≠ "-") (h2 : gt ≠ "-:all") :
    ∃ fm : FieldMetadata,
      extractFieldsRecursive [GoField.mk n gt jt tn false false []] = [fm] ∧
      (fm.PrimaryKey = true ↔
        substrOccurs "primaryKey" gt ∨ substrOccurs "primarykey" gt) := by
  refine ⟨{ Name := jsonFieldName n jt, Type' := tn, GormTag := gt, JSONTag := jt,
            Required := goContains gt "not null",
            PrimaryKey := goContains gt "primaryKey" || goContains gt "primarykey" },
    ?_, ?_⟩
  · simp only [extractFieldsRecursive]
    rw [if_neg (by simp : ¬ (false = true)), if_neg hA,
      if_neg (not_or.mpr ⟨h1, h2⟩)]
  · show (goContains gt "primaryKey" || goContains gt "primarykey") = true ↔ _
    rw [Bool.or_eq_true, goContains_iff, goContains_iff]

/-- C9 amended witness: a member tagged "primaryKey" gets the flag, and the
flag is characterized by the two accepted spellings. -/
theorem extractFields_primaryKey_flag_spotcheck :
    strToLower "ID" ≠ "adminonly" ∧ "primaryKey" ≠ "-" ∧ "primaryKey" ≠ "-:all" ∧
    ∃ fm : FieldMetadata,
      extractFieldsRecursive [GoField.mk "ID" "primaryKey" "" "uint" false false []] =
        [fm] ∧
      (fm.PrimaryKey = true ↔
        substrOccurs "primaryKey" "primaryKey" ∨ substrOccurs "primarykey" "primaryKey") :=
  ⟨by decide, by decide, by decide,
    extractFields_primaryKey_flag "ID" "primaryKey" "" "uint"
      (by decide) (by decide) (by decide)⟩

end Chukfi
